import Mathlib

/-!
# Verification of the mmrepo dependency-resolution engine

A shallow embedding, in Lean 4, of the core data model and algorithms of the
`git-mmrepo` tool (Python sources under `python/mmrepo/`), together with
theorems settling a list of specification claims about it.

Conventions used throughout:
* Python strings are modelled either as Lean `String` or as `List Char`
  (for the functions that do character-level parsing).
* Python dicts that the code treats as insertion-ordered maps are modelled
  as association lists `List (K × V)`; `alookup` is first-match lookup and
  `astore` is dict assignment (replace the first binding in place, append
  when absent), matching CPython dict semantics for existing/new keys.
* Fallible code returns `Except PyErr _`.  `PyErr` distinguishes the error
  classes that actually occur in the modelled code paths: `UserError` (the
  tool's user-reportable error), `typeError` (a Python `TypeError` from a
  keyword argument that the callee does not accept), `nameError` (a Python
  `NameError` from evaluating an undefined variable), and `assertError`
  (a failed `assert`).
* The target platform is POSIX, so `os.path.sep = '/'` and `os.path.join`
  is modelled accordingly.
-/

/-- Python-level error outcomes that occur in the modelled code. -/
inductive PyErr where
  | userError (msg : String)
  | typeError (callee : String) (kwarg : String)
  | nameError (name : String)
  | assertError
  deriving Repr, DecidableEq

/-! ## Association-list maps (model of Python `dict`) -/

/-- First-match lookup in an association list (Python `d.get(k)`). -/
def alookup {K B : Type} [DecidableEq K] (k : K) : List (K × B) → Option B
  | [] => none
  | (k', v') :: rest => if k' = k then some v' else alookup k rest

/-- Dict assignment `d[k] = v`: replace the first binding of `k` in place,
append a new binding when `k` is absent. -/
def astore {K B : Type} [DecidableEq K] (k : K) (v : B) : List (K × B) → List (K × B)
  | [] => [(k, v)]
  | (k', v') :: rest => if k' = k then (k, v) :: rest else (k', v') :: astore k v rest

variable {K B : Type} [DecidableEq K]

@[simp] theorem alookup_nil (k : K) : alookup k ([] : List (K × B)) = none := rfl

theorem alookup_cons (k k' : K) (v' : B) (rest : List (K × B)) :
    alookup k ((k', v') :: rest) = if k' = k then some v' else alookup k rest := rfl

/-- Storing at a key and then looking it up returns the stored value. -/
theorem alookup_astore_self (k : K) (v : B) (l : List (K × B)) :
    alookup k (astore k v l) = some v := by
  induction l with
  | nil => simp [astore, alookup]
  | cons hd tl ih =>
    by_cases h : hd.1 = k
    · simp [astore, alookup, h]
    · simp [astore, alookup, h, ih]

/-- Storing at a key does not change lookups at other keys. -/
theorem alookup_astore_ne (k k' : K) (v : B) (l : List (K × B)) (h : k' ≠ k) :
    alookup k' (astore k v l) = alookup k' l := by
  induction l with
  | nil =>
    simp only [astore, alookup_cons, alookup_nil]
    rw [if_neg (Ne.symm h)]
  | cons hd tl ih =>
    obtain ⟨k1, v1⟩ := hd
    by_cases hh : k1 = k
    · subst hh
      have hs : astore k1 v ((k1, v1) :: tl) = (k1, v) :: tl := by simp [astore]
      rw [hs, alookup_cons, alookup_cons, if_neg (Ne.symm h), if_neg (Ne.symm h)]
    · simp only [astore, hh, if_false]
      rw [alookup_cons, alookup_cons, ih]

/-- Re-assigning the value a key already (first) maps to leaves the list
literally unchanged. -/
theorem astore_of_alookup_eq (k : K) (v : B) (l : List (K × B))
    (h : alookup k l = some v) : astore k v l = l := by
  induction l with
  | nil => simp [alookup] at h
  | cons hd tl ih =>
    by_cases hh : hd.1 = k
    · rw [alookup_cons, if_pos hh] at h
      obtain ⟨h1, h2⟩ := hd
      simp only at hh
      subst hh
      cases h
      simp [astore]
    · rw [alookup_cons, if_neg hh] at h
      simp [astore, hh, ih h]

/-- Storing an absent key appends one binding. -/
theorem astore_length_of_alookup_none (k : K) (v : B) (l : List (K × B))
    (h : alookup k l = none) : (astore k v l).length = l.length + 1 := by
  induction l with
  | nil => simp [astore]
  | cons hd tl ih =>
    by_cases hh : hd.1 = k
    · rw [alookup_cons, if_pos hh] at h
      cases h
    · rw [alookup_cons, if_neg hh] at h
      simp [astore, hh, ih h]

/-- A key that looks up successfully is among the keys of the list. -/
theorem mem_keys_of_alookup_some (k : K) (v : B) (l : List (K × B))
    (h : alookup k l = some v) : k ∈ l.map Prod.fst := by
  induction l with
  | nil => simp [alookup] at h
  | cons hd tl ih =>
    by_cases hh : hd.1 = k
    · simp [hh.symm]
    · rw [alookup_cons, if_neg hh] at h
      simp [ih h]

/-! ## `RepoTreesConfig.add_alias` (config.py)

```python
def add_alias(self, alias: str, tree_id: str) -> str:
  requested_alias = alias
  aliases = self.aliases
  for i in itertools.count(0):
    existing_tree_id = aliases.get(alias)
    if existing_tree_id is None or existing_tree_id == tree_id:
      aliases[alias] = tree_id
      return alias
    alias = requested_alias + "-" + str(i)
```

The unbounded `itertools.count` loop is modelled with explicit fuel; the
fuel-sufficiency theorem below shows that `aliases.length + 1` iterations
always suffice, so `add_alias` (which supplies that much fuel) models the
loop exactly. -/

namespace RepoTreesConfig

/-- One candidate alias per loop iteration: iteration `0` tries the requested
alias, iteration `i + 1` tries `requested + "-" + str(i)`. -/
def candidate (requested : String) : Nat → String
  | 0 => requested
  | i + 1 => requested ++ "-" ++ Nat.repr i

/-- The `for i in itertools.count(0)` loop body of `add_alias`, with fuel. -/
def addAliasGo (aliases : List (String × String)) (requested tree_id : String) :
    Nat → Nat → Option (String × List (String × String))
  | 0, _ => none
  | fuel + 1, i =>
    let cand := candidate requested i
    match alookup cand aliases with
    | none => some (cand, astore cand tree_id aliases)
    | some existing =>
      if existing = tree_id then some (cand, astore cand tree_id aliases)
      else addAliasGo aliases requested tree_id fuel (i + 1)

/-- `RepoTreesConfig.add_alias`: returns the actually-assigned alias and the
updated alias table. -/
def add_alias (aliases : List (String × String)) (requested tree_id : String) :
    Option (String × List (String × String)) :=
  addAliasGo aliases requested tree_id (aliases.length + 1) 0

end RepoTreesConfig

/-! ### Injectivity of `Nat.repr` (the model of Python `str(i)`)

Needed to show the candidate aliases `req, req-0, req-1, …` are pairwise
distinct, which is what makes the `add_alias` loop terminate. -/

theorem digitChar_inj_lt_ten (a b : Nat) (ha : a < 10) (hb : b < 10)
    (h : Nat.digitChar a = Nat.digitChar b) : a = b := by
  interval_cases a <;> interval_cases b <;> simp_all [Nat.digitChar]

theorem toDigitsCore_eq_digits (f : Nat) :
    ∀ (n : Nat) (acc : List Char), n < 10 ^ f → n ≠ 0 →
      Nat.toDigitsCore 10 f n acc = ((Nat.digits 10 n).map Nat.digitChar).reverse ++ acc := by
  induction f with
  | zero =>
    intro n acc hlt hne
    exact absurd (Nat.lt_one_iff.mp hlt) hne
  | succ f ih =>
    intro n acc hlt hne
    have hdig : Nat.digits 10 n = n % 10 :: Nat.digits 10 (n / 10) :=
      Nat.digits_def' (by norm_num) (Nat.pos_of_ne_zero hne)
    by_cases hdiv : n / 10 = 0
    · simp only [Nat.toDigitsCore, hdiv, if_true]
      rw [hdig, hdiv]
      simp
    · simp only [Nat.toDigitsCore, hdiv, if_false]
      have hlt' : n / 10 < 10 ^ f := by
        rw [Nat.div_lt_iff_lt_mul (by norm_num : 0 < 10)]
        calc n < 10 ^ (f + 1) := hlt
        _ = 10 ^ f * 10 := by ring
      rw [ih (n / 10) (Nat.digitChar (n % 10) :: acc) hlt' hdiv, hdig]
      simp

theorem toDigits_eq_digits (n : Nat) :
    Nat.toDigits 10 n =
      if n = 0 then ['0'] else ((Nat.digits 10 n).map Nat.digitChar).reverse := by
  by_cases h : n = 0
  · subst h; rfl
  · rw [if_neg h]
    have hlt : n < 10 ^ (n + 1) :=
      lt_of_lt_of_le (Nat.lt_pow_self (by norm_num) n)
        (Nat.pow_le_pow_right (by norm_num) (Nat.le_succ n))
    have := toDigitsCore_eq_digits (n + 1) n [] hlt h
    simpa [Nat.toDigits] using this

theorem map_digitChar_inj (l1 l2 : List Nat) (h1 : ∀ d ∈ l1, d < 10) (h2 : ∀ d ∈ l2, d < 10)
    (h : l1.map Nat.digitChar = l2.map Nat.digitChar) : l1 = l2 := by
  induction l1 generalizing l2 with
  | nil => cases l2 <;> simp_all
  | cons a t ih =>
    cases l2 with
    | nil => simp_all
    | cons b t2 =>
      simp only [List.map_cons, List.cons.injEq] at h
      have hab : a = b :=
        digitChar_inj_lt_ten a b (h1 a (by simp)) (h2 b (by simp)) h.1
      have ht : t = t2 :=
        ih t2 (fun d hd => h1 d (by simp [hd])) (fun d hd => h2 d (by simp [hd])) h.2
      rw [hab, ht]

theorem digits_map_ne_single_zero (n : Nat) (hn : n ≠ 0)
    (h : (Nat.digits 10 n).map Nat.digitChar = ['0']) : False := by
  rcases hL : Nat.digits 10 n with _ | ⟨a, t⟩
  · rw [hL] at h; simp at h
  · rw [hL] at h
    simp only [List.map_cons, List.cons.injEq] at h
    obtain ⟨h0, ht⟩ := h
    have hta : t = [] := by simpa using ht
    have ha : a < 10 := Nat.digits_lt_base (by norm_num) (by rw [hL]; simp)
    have ha0 : a = 0 := digitChar_inj_lt_ten a 0 ha (by norm_num) h0
    have hzero : n = 0 := by
      have hin := congrArg (Nat.ofDigits 10) hL
      rw [Nat.ofDigits_digits] at hin
      rw [hin, hta, ha0]
      simp [Nat.ofDigits]
    exact hn hzero

theorem natRepr_inj (m n : Nat) (h : Nat.repr m = Nat.repr n) : m = n := by
  have hdig : Nat.toDigits 10 m = Nat.toDigits 10 n := by
    have := congrArg String.data h
    simpa [Nat.repr, List.asString] using this
  rw [toDigits_eq_digits, toDigits_eq_digits] at hdig
  by_cases hm : m = 0 <;> by_cases hn : n = 0
  · rw [hm, hn]
  · rw [if_pos hm, if_neg hn] at hdig
    have h' : (Nat.digits 10 n).map Nat.digitChar = ['0'] := by
      have := (congrArg List.reverse hdig).symm
      simpa using this
    exact (digits_map_ne_single_zero n hn h').elim
  · rw [if_neg hm, if_pos hn] at hdig
    have h' : (Nat.digits 10 m).map Nat.digitChar = ['0'] := by
      have := congrArg List.reverse hdig
      simpa using this
    exact (digits_map_ne_single_zero m hm h').elim
  · rw [if_neg hm, if_neg hn] at hdig
    have hrev := List.reverse_injective hdig
    have hlist := map_digitChar_inj _ _
      (fun d hd => Nat.digits_lt_base (by norm_num) hd)
      (fun d hd => Nat.digits_lt_base (by norm_num) hd) hrev
    have hval := congrArg (Nat.ofDigits 10) hlist
    rwa [Nat.ofDigits_digits, Nat.ofDigits_digits] at hval

theorem natRepr_length_pos (n : Nat) : 0 < (Nat.repr n).length := by
  have hlen : (Nat.repr n).length = (Nat.toDigits 10 n).length := rfl
  rw [hlen, toDigits_eq_digits]
  by_cases h : n = 0
  · simp [h]
  · rw [if_neg h]
    simp only [List.length_reverse, List.length_map]
    exact List.length_pos.mpr (Nat.digits_ne_nil_iff_ne_zero.mpr h)

namespace RepoTreesConfig

/-- The candidate aliases tried by successive loop iterations are pairwise
distinct. -/
theorem candidate_inj (req : String) (i j : Nat) (h : candidate req i = candidate req j) :
    i = j := by
  have hdash : ("-" : String).length = 1 := rfl
  cases i with
  | zero =>
    cases j with
    | zero => rfl
    | succ j =>
      exfalso
      have hl := congrArg String.length h
      simp only [candidate] at hl
      rw [String.length_append, String.length_append, hdash] at hl
      have := natRepr_length_pos j
      omega
  | succ i =>
    cases j with
    | zero =>
      exfalso
      have hl := congrArg String.length h
      simp only [candidate] at hl
      rw [String.length_append, String.length_append, hdash] at hl
      have := natRepr_length_pos i
      omega
    | succ j =>
      simp only [candidate] at h
      have hd := congrArg String.data h
      rw [String.data_append, String.data_append, String.data_append,
        String.data_append] at hd
      have hcancel := List.append_cancel_left hd
      have hrepr : Nat.repr i = Nat.repr j := String.ext hcancel
      rw [natRepr_inj i j hrepr]

theorem addAliasGo_succ (T : List (String × String)) (req id : String) (fuel i : Nat) :
    addAliasGo T req id (fuel + 1) i =
      match alookup (candidate req i) T with
      | none => some (candidate req i, astore (candidate req i) id T)
      | some existing =>
        if existing = id then some (candidate req i, astore (candidate req i) id T)
        else addAliasGo T req id fuel (i + 1) := rfl

/-- If the loop runs out of fuel, every candidate tried was bound to a
different tree. -/
theorem addAliasGo_none_blocked (T : List (String × String)) (req id : String) :
    ∀ (fuel i : Nat), addAliasGo T req id fuel i = none →
      ∀ j, i ≤ j → j < i + fuel → ∃ v, alookup (candidate req j) T = some v ∧ v ≠ id := by
  intro fuel
  induction fuel with
  | zero => intro i _ j hij hj; omega
  | succ fuel ih =>
    intro i hnone j hij hj
    rw [addAliasGo_succ] at hnone
    split at hnone
    · cases hnone
    · rename_i v hv
      split at hnone
      · cases hnone
      · rename_i hveq
        by_cases hji : j = i
        · exact ⟨v, hji ▸ hv, hveq⟩
        · exact ih (i + 1) hnone j (by omega) (by omega)

/-- The loop of `add_alias` always succeeds within `length + 1` iterations:
the candidates are pairwise distinct, so they cannot all be keys of the
table (pigeonhole). -/
theorem add_alias_isSome (T : List (String × String)) (req id : String) :
    ∃ r, add_alias T req id = some r := by
  rcases hr : add_alias T req id with _ | r
  · exfalso
    have hblocked := addAliasGo_none_blocked T req id (T.length + 1) 0 hr
    -- All `T.length + 1` distinct candidates are keys of the table.
    have hsub : ∀ j < T.length + 1, candidate req j ∈ T.map Prod.fst := by
      intro j hjlt
      obtain ⟨v, hv, _⟩ := hblocked j (Nat.zero_le j) (by omega)
      exact mem_keys_of_alookup_some _ v T hv
    have hnodup : ((List.range (T.length + 1)).map (candidate req)).Nodup := by
      refine List.Nodup.map_on ?_ (List.nodup_range _)
      intro i _ j _ hc
      exact candidate_inj req i j hc
    have hsub' : ((List.range (T.length + 1)).map (candidate req)).toFinset ⊆
        (T.map Prod.fst).toFinset := by
      intro c hc
      rw [List.mem_toFinset, List.mem_map] at hc
      obtain ⟨j, hj, hcj⟩ := hc
      rw [List.mem_range] at hj
      rw [List.mem_toFinset]
      exact hcj ▸ hsub j hj
    have hcard := Finset.card_le_card hsub'
    rw [List.toFinset_card_of_nodup hnodup] at hcard
    have hle := List.toFinset_card_le (T.map Prod.fst)
    simp only [List.length_map, List.length_range] at hcard hle
    omega
  · exact ⟨r, rfl⟩

/-- A successful `add_alias` run updates the table at exactly the returned
alias, a key that previously was absent or already bound to the same tree. -/
theorem addAliasGo_some_shape (T : List (String × String)) (req id : String) :
    ∀ (fuel i : Nat) (a : String) (T' : List (String × String)),
      addAliasGo T req id fuel i = some (a, T') →
      T' = astore a id T ∧ (alookup a T = none ∨ alookup a T = some id) := by
  intro fuel
  induction fuel with
  | zero => intro i a T' h; cases h
  | succ fuel ih =>
    intro i a T' h
    rw [addAliasGo_succ] at h
    split at h
    · rename_i hv
      cases h
      exact ⟨rfl, Or.inl hv⟩
    · rename_i v hv
      split at h
      · rename_i hveq
        cases h
        exact ⟨rfl, Or.inr (hveq ▸ hv)⟩
      · exact ih (i + 1) a T' h

end RepoTreesConfig

/-- C10: `add_alias` never rebinds an existing alias — every binding present
before the call is unchanged after it, the call terminates (within the fuel
bound `length + 1` that `add_alias` supplies), and the returned alias is
bound to the requested tree id. -/
theorem c10_add_alias_invariant (T : List (String × String)) (req id : String) :
    ∃ a T', RepoTreesConfig.add_alias T req id = some (a, T') ∧
      alookup a T' = some id ∧
      ∀ k v, alookup k T = some v → alookup k T' = some v := by
  obtain ⟨⟨a, T'⟩, hr⟩ := RepoTreesConfig.add_alias_isSome T req id
  obtain ⟨hT', hlk⟩ := RepoTreesConfig.addAliasGo_some_shape T req id _ 0 a T' hr
  refine ⟨a, T', hr, ?_, ?_⟩
  · rw [hT']
    exact alookup_astore_self a id T
  · intro k v hkv
    by_cases hka : k = a
    · subst hka
      rcases hlk with hnone | hsome
      · rw [hkv] at hnone; cases hnone
      · have hv : v = id := by
          have := hkv.symm.trans hsome
          injection this
        subst hv
        rw [hT']
        exact alookup_astore_self k v T
    · rw [hT', alookup_astore_ne a k id T hka]
      exact hkv

/-- Witness for C10 at a concrete table: adding alias `x` for a second tree
while `x` is bound to the first. -/
theorem c10_add_alias_invariant_witness :
    ∃ a T', RepoTreesConfig.add_alias [("x", "git/t1")] "x" "git/t2" = some (a, T') ∧
      alookup a T' = some "git/t2" ∧
      ∀ k v, alookup k [("x", "git/t1")] = some v → alookup k T' = some v :=
  c10_add_alias_invariant [("x", "git/t1")] "x" "git/t2"

/-- C7: alias uniquing.  For any table not yet binding `foo` or `foo-0`:
adding `foo → A` then `foo → B` (with `B` a different tree) binds `foo` to
`A` and the counter-suffixed `foo-0` to `B`, returning the actually-assigned
alias each time; re-adding `foo → A` afterwards is idempotent (returns
`foo` and leaves the table unchanged). -/
theorem c7_alias_uniquing (T : List (String × String)) (A B : String)
    (hAB : A ≠ B) (h0 : alookup "foo" T = none) (h1 : alookup "foo-0" T = none) :
    RepoTreesConfig.add_alias T "foo" A = some ("foo", astore "foo" A T) ∧
    RepoTreesConfig.add_alias (astore "foo" A T) "foo" B =
      some ("foo-0", astore "foo-0" B (astore "foo" A T)) ∧
    alookup "foo" (astore "foo-0" B (astore "foo" A T)) = some A ∧
    alookup "foo-0" (astore "foo-0" B (astore "foo" A T)) = some B ∧
    RepoTreesConfig.add_alias (astore "foo-0" B (astore "foo" A T)) "foo" A =
      some ("foo", astore "foo-0" B (astore "foo" A T)) := by
  have hc0 : RepoTreesConfig.candidate "foo" 0 = "foo" := rfl
  have hc1 : RepoTreesConfig.candidate "foo" 1 = "foo-0" := by decide
  have hlen1 : (astore "foo" A T).length = T.length + 1 :=
    astore_length_of_alookup_none "foo" A T h0
  have hfoo_T1 : alookup "foo" (astore "foo" A T) = some A := alookup_astore_self "foo" A T
  have hfoo0_T1 : alookup "foo-0" (astore "foo" A T) = none := by
    rw [alookup_astore_ne "foo" "foo-0" A T (by decide)]
    exact h1
  have hfoo_T2 : alookup "foo" (astore "foo-0" B (astore "foo" A T)) = some A := by
    rw [alookup_astore_ne "foo-0" "foo" B (astore "foo" A T) (by decide)]
    exact hfoo_T1
  have hfoo0_T2 : alookup "foo-0" (astore "foo-0" B (astore "foo" A T)) = some B :=
    alookup_astore_self "foo-0" B (astore "foo" A T)
  refine ⟨?_, ?_, hfoo_T2, hfoo0_T2, ?_⟩
  · simp only [RepoTreesConfig.add_alias, RepoTreesConfig.addAliasGo_succ, hc0, h0]
  · simp only [RepoTreesConfig.add_alias, RepoTreesConfig.addAliasGo_succ, hc0, hfoo_T1,
      if_neg hAB, hlen1, hc1, hfoo0_T1]
  · have hre := astore_of_alookup_eq "foo" A (astore "foo-0" B (astore "foo" A T)) hfoo_T2
    simp only [RepoTreesConfig.add_alias, RepoTreesConfig.addAliasGo_succ, hc0, hfoo_T2,
      if_pos rfl, if_true, hre]

/-- Witness for C7 at the empty alias table with two concrete tree ids. -/
theorem c7_alias_uniquing_witness :
    RepoTreesConfig.add_alias [] "foo" "git/a" = some ("foo", astore "foo" "git/a" []) ∧
    RepoTreesConfig.add_alias (astore "foo" "git/a" []) "foo" "git/b" =
      some ("foo-0", astore "foo-0" "git/b" (astore "foo" "git/a" [])) ∧
    alookup "foo" (astore "foo-0" "git/b" (astore "foo" "git/a" [])) = some "git/a" ∧
    alookup "foo-0" (astore "foo-0" "git/b" (astore "foo" "git/a" [])) = some "git/b" ∧
    RepoTreesConfig.add_alias (astore "foo-0" "git/b" (astore "foo" "git/a" [])) "foo" "git/a" =
      some ("foo", astore "foo-0" "git/b" (astore "foo" "git/a" [])) :=
  c7_alias_uniquing [] "git/a" "git/b" (by decide) (by decide) (by decide)

/-! ## `VersionComponent` / `VersionMap` parsing (version_map.py)

```python
EXTRACT_RESOLVED_PAT = re.compile(r"""(.*)=([^=]+)""")
EXTRACT_SYMBOLIC_PAT = re.compile(r"""(.*)@([^@]+)""")
WHITESPACE_PAT = re.compile(r"""[\s|\n|\r]+""")
```

`re.match` with `(.*)X([^X]+)` (greedy, anchored at the start but *not* at
the end) matches iff `s` contains an occurrence of `X` followed by at least
one non-`X` character; group 1 is everything before the *last* such
occurrence and group 2 is the maximal non-`X` run after it.  The match can
end before the end of `s`: any trailing run of `X` characters after group 2
is left unconsumed (and `parse` drops it).  `extractLast` below implements
exactly these semantics by splitting on `X` and taking the last nonempty
segment after the first; `extractGo_some`/`extractGo_none` prove the
characterisation used by the round-trip theorems.  Strings are modelled as
`List Char`. -/

/-- Split a character list at every single occurrence of `X` (every segment
is `X`-free, `n` occurrences of `X` give `n + 1` segments). -/
def charSplit (X : Char) : List Char → List (List Char)
  | [] => [[]]
  | c :: rest =>
    match charSplit X rest with
    | [] => [[]]
    | seg :: segs => if c = X then [] :: seg :: segs else (c :: seg) :: segs

/-- Interleave `X` before each segment and flatten (the reconstruction of
everything after the first segment of a `charSplit`). -/
def sepFlat (X : Char) (segs : List (List Char)) : List Char :=
  segs.flatMap (fun seg => X :: seg)

/-- Scan the segments after the first for the last nonempty one: group 1 is
the input up to the `X` before it, group 2 the segment itself. -/
def extractGo (X : Char) (acc : List Char) : List (List Char) → Option (List Char × List Char)
  | [] => none
  | seg :: rest =>
    match extractGo X (acc ++ X :: seg) rest with
    | some r => some r
    | none => if seg = [] then none else some (acc, seg)

/-- `re.match` of `(.*)X([^X]+)` against `s`, returning (group 1, group 2),
for a separator `X ≠ '\n'` (the source only uses `X ∈ {'=', '@'}`).
CPython's `.` without `DOTALL` does not match `'\n'`, so group 1 is confined
to the first line of `s`; the negated class `[^X]` *does* match `'\n'`, so
group 2 may cross newlines.  Hence when `s` has no newline the greedy match
picks the last `X` followed by a non-`X` character (`extractGo` over the
`X`-split); when `s` continues past its first line, the chosen `X` is the
*last* `X` of the first line — its following character (the head of its
trailing segment, or the newline itself when the line ends in `X`) is never
`X` — and group 2 is the maximal non-`X` run after it, crossing newlines. -/
def extractLast (X : Char) (s : List Char) : Option (List Char × List Char) :=
  let line1 := s.takeWhile (fun c => c ≠ '\n')
  let rest := s.dropWhile (fun c => c ≠ '\n')
  match charSplit X line1 with
  | [] => none
  | h :: segs =>
    if rest = [] then extractGo X h segs
    else
      match segs.getLast? with
      | none => none
      | some lastSeg =>
        some (h ++ sepFlat X segs.dropLast,
          (lastSeg ++ rest).takeWhile (fun c => c ≠ X))

theorem takeWhile_all_true (p : Char → Bool) (l : List Char)
    (h : ∀ c ∈ l, p c = true) : l.takeWhile p = l := by
  induction l with
  | nil => rfl
  | cons c rest ih =>
    have hc : p c = true := h c (List.mem_cons_self c rest)
    simp only [List.takeWhile_cons, hc, if_true]
    rw [ih (fun d hd => h d (List.mem_cons_of_mem c hd))]

theorem dropWhile_all_true (p : Char → Bool) (l : List Char)
    (h : ∀ c ∈ l, p c = true) : l.dropWhile p = [] := by
  induction l with
  | nil => rfl
  | cons c rest ih =>
    have hc : p c = true := h c (List.mem_cons_self c rest)
    simp only [List.dropWhile_cons, hc, if_true]
    exact ih (fun d hd => h d (List.mem_cons_of_mem c hd))

/-- On a newline-free input the first line is the whole input, so the match
is the structural `extractGo` over the full `X`-split. -/
theorem extractLast_eq_of_no_newline (X : Char) (s : List Char) (hnl : '\n' ∉ s) :
    extractLast X s =
      match charSplit X s with
      | [] => none
      | h :: segs => extractGo X h segs := by
  have hall : ∀ c ∈ s, (fun c => decide (c ≠ '\n')) c = true :=
    fun c hc => decide_eq_true (fun he => hnl (he ▸ hc))
  unfold extractLast
  rw [takeWhile_all_true _ s hall, dropWhile_all_true _ s hall]
  cases hcs : charSplit X s with
  | nil => simp [hcs]
  | cons h segs => simp [hcs]

theorem charSplit_ne_nil (X : Char) (s : List Char) : charSplit X s ≠ [] := by
  cases s with
  | nil => simp [charSplit]
  | cons c rest =>
    simp only [charSplit]
    rcases h : charSplit X rest with _ | ⟨seg, segs⟩
    · simp
    · by_cases hc : c = X <;> simp [hc]

theorem charSplit_reconstruct (X : Char) :
    ∀ (s : List Char) (h : List Char) (t : List (List Char)),
      charSplit X s = h :: t → h ++ sepFlat X t = s := by
  intro s
  induction s with
  | nil =>
    intro h t hsplit
    simp only [charSplit] at hsplit
    cases hsplit
    simp [sepFlat]
  | cons c rest ih =>
    intro h t hsplit
    rcases hr : charSplit X rest with _ | ⟨seg, segs⟩
    · exact absurd hr (charSplit_ne_nil X rest)
    · simp only [charSplit, hr] at hsplit
      by_cases hc : c = X
      · rw [if_pos hc] at hsplit
        cases hsplit
        have := ih seg segs hr
        simp only [sepFlat, List.flatMap_cons, List.nil_append]
        rw [hc]
        simp only [sepFlat] at this
        rw [List.cons_append, this]
      · rw [if_neg hc] at hsplit
        obtain ⟨hh, ht⟩ := List.cons_eq_cons.mp hsplit
        subst hh
        subst ht
        have := ih seg segs hr
        simp only [sepFlat] at this ⊢
        rw [List.cons_append, this]

theorem charSplit_no_sep (X : Char) :
    ∀ (s : List Char) (seg : List Char), seg ∈ charSplit X s → X ∉ seg := by
  intro s
  induction s with
  | nil =>
    intro seg hseg
    simp only [charSplit, List.mem_singleton] at hseg
    simp [hseg]
  | cons c rest ih =>
    intro seg hseg
    rcases hr : charSplit X rest with _ | ⟨seg1, segs⟩
    · exact absurd hr (charSplit_ne_nil X rest)
    · simp only [charSplit, hr] at hseg
      by_cases hc : c = X
      · rw [if_pos hc] at hseg
        rcases List.mem_cons.mp hseg with hnil | hmem
        · simp [hnil]
        · exact ih seg (hr ▸ hmem)
      · rw [if_neg hc] at hseg
        rcases List.mem_cons.mp hseg with hcons | hmem
        · subst hcons
          intro hX
          rcases List.mem_cons.mp hX with hXc | hXseg
          · exact hc hXc.symm
          · exact ih seg1 (hr ▸ List.mem_cons_self seg1 segs) hXseg
        · exact ih seg (hr ▸ List.mem_cons_of_mem seg1 hmem)

theorem sepFlat_all_nil (X : Char) :
    ∀ (segs : List (List Char)), (∀ seg ∈ segs, seg = ([] : List Char)) →
      sepFlat X segs = List.replicate segs.length X := by
  intro segs
  induction segs with
  | nil => intro _; simp [sepFlat]
  | cons seg rest ih =>
    intro hall
    have hseg : seg = [] := hall seg (List.mem_cons_self seg rest)
    have hrest := ih (fun s hs => hall s (List.mem_cons_of_mem seg hs))
    simp only [sepFlat, List.flatMap_cons] at hrest ⊢
    rw [hseg, hrest, List.length_cons, List.replicate_succ]
    rfl

theorem extractGo_none (X : Char) :
    ∀ (segs : List (List Char)) (acc : List Char),
      extractGo X acc segs = none → ∀ seg ∈ segs, seg = ([] : List Char) := by
  intro segs
  induction segs with
  | nil => intro acc _ seg hseg; cases hseg
  | cons seg1 rest ih =>
    intro acc hnone seg hseg
    simp only [extractGo] at hnone
    rcases hd : extractGo X (acc ++ X :: seg1) rest with _ | r
    · rw [hd] at hnone
      by_cases h1 : seg1 = []
      · rcases List.mem_cons.mp hseg with hs | hs
        · rw [hs, h1]
        · exact ih (acc ++ X :: seg1) hd seg hs
      · rw [if_neg h1] at hnone
        cases hnone
    · rw [hd] at hnone
      cases hnone

theorem extractGo_some (X : Char) :
    ∀ (segs : List (List Char)) (acc g1 g2 : List Char),
      extractGo X acc segs = some (g1, g2) → (∀ seg ∈ segs, X ∉ seg) →
      ∃ k, acc ++ sepFlat X segs = g1 ++ X :: (g2 ++ List.replicate k X) ∧
        g2 ≠ [] ∧ X ∉ g2 := by
  intro segs
  induction segs with
  | nil => intro acc g1 g2 h _; cases h
  | cons seg1 rest ih =>
    intro acc g1 g2 h hfree
    simp only [extractGo] at h
    rcases hd : extractGo X (acc ++ X :: seg1) rest with _ | r
    · rw [hd] at h
      by_cases h1 : seg1 = []
      · rw [if_pos h1] at h
        cases h
      · rw [if_neg h1] at h
        cases h
        have hallnil := extractGo_none X rest (acc ++ X :: seg1) hd
        refine ⟨rest.length, ?_, h1, hfree seg1 (List.mem_cons_self seg1 rest)⟩
        have hrep : rest.flatMap (fun seg => X :: seg) = List.replicate rest.length X := by
          have := sepFlat_all_nil X rest hallnil
          simpa [sepFlat] using this
        simp only [sepFlat, List.flatMap_cons, hrep]
        simp
    · rw [hd] at h
      cases h
      have := ih (acc ++ X :: seg1) g1 g2 hd
        (fun seg hs => hfree seg (List.mem_cons_of_mem seg1 hs))
      obtain ⟨k, hk, hne, hfree2⟩ := this
      refine ⟨k, ?_, hne, hfree2⟩
      simp only [sepFlat, List.flatMap_cons]
      rw [← hk]
      simp [sepFlat]

/-- Characterisation of a successful `(.*)X([^X]+)` match: the input is
group 1, an `X`, group 2 (nonempty and `X`-free), and a stranded trailing
run of `X`s that the match leaves unconsumed. -/
theorem extractLast_some (X : Char) (s g1 g2 : List Char) (hnl : '\n' ∉ s)
    (h : extractLast X s = some (g1, g2)) :
    ∃ k, s = g1 ++ X :: (g2 ++ List.replicate k X) ∧ g2 ≠ [] ∧ X ∉ g2 := by
  rw [extractLast_eq_of_no_newline X s hnl] at h
  rcases hs : charSplit X s with _ | ⟨hd, t⟩
  · exact absurd hs (charSplit_ne_nil X s)
  · rw [hs] at h
    have hfree : ∀ seg ∈ t, X ∉ seg := fun seg hseg =>
      charSplit_no_sep X s seg (hs ▸ List.mem_cons_of_mem hd hseg)
    obtain ⟨k, hk, hne, hfree2⟩ := extractGo_some X t hd g1 g2 h hfree
    refine ⟨k, ?_, hne, hfree2⟩
    rw [← charSplit_reconstruct X s hd t hs]
    exact hk

/-- If the input does not end with `X`, a successful match strands nothing. -/
theorem extractLast_some_total (X : Char) (s g1 g2 : List Char) (hnl : '\n' ∉ s)
    (h : extractLast X s = some (g1, g2)) (hlast : s.getLast? ≠ some X) :
    s = g1 ++ X :: g2 := by
  obtain ⟨k, hk, hne, _⟩ := extractLast_some X s g1 g2 hnl h
  cases k with
  | zero => simpa using hk
  | succ k' =>
    exfalso
    apply hlast
    rw [hk, List.replicate_succ']
    have hshape : g1 ++ X :: (g2 ++ (List.replicate k' X ++ [X])) =
        (g1 ++ X :: (g2 ++ List.replicate k' X)) ++ [X] := by simp
    rw [hshape]
    exact List.getLast?_concat _

/-- `VersionComponent` (version_map.py): the tree field is kept in its
unresolved spec-string form here (resolution is modelled separately). -/
structure VersionComponent where
  tree : List Char
  resolved_version : Option (List Char)
  symbolic_version : Option (List Char)
  deriving Repr, DecidableEq

namespace VersionComponent

/-- `VersionComponent.parse` (version_map.py 50-81): extract the resolved
version with `(.*)=([^=]+)`, then the symbolic version with
`(.*)@([^@]+)`; whatever remains is the tree spec. -/
def parse (spec : List Char) : VersionComponent :=
  let p1 :=
    match extractLast '=' spec with
    | some (g1, g2) => (g1, some g2)
    | none => (spec, (none : Option (List Char)))
  let p2 :=
    match extractLast '@' p1.1 with
    | some (g1, g2) => (g1, some g2)
    | none => (p1.1, (none : Option (List Char)))
  { tree := p2.1, resolved_version := p1.2, symbolic_version := p2.2 }

/-- The remainder of the spec after the resolved-version extraction (the
string the symbolic-version pattern is then matched against). -/
def specAfterResolved (spec : List Char) : List Char :=
  match extractLast '=' spec with
  | some (g1, _) => g1
  | none => spec

/-- `VersionComponent.__str__` (version_map.py 83-93) for an unresolved tree
field: tree, then `'@' + symbolic`, then `'=' + resolved`. -/
def toChars (c : VersionComponent) : List Char :=
  c.tree ++
    (match c.symbolic_version with | some s => '@' :: s | none => []) ++
    (match c.resolved_version with | some r => '=' :: r | none => [])

end VersionComponent

/-- C9 counterexample: `str(VersionComponent.parse(s)) == s` fails at the
token `"a=b="`: the regex match strands the trailing `'='`, which
stringification then drops, giving back `"a=b"`.  It also fails at the
newline token `"a=b\nc=d"`: because `'.'` does not match a newline, the
greedy match picks the `'='` of the first line, giving groups
`("a", "b\nc")` and stranding `"=d"`, so stringification returns
`"a=b\nc"`. -/
theorem c9_roundtrip_counterexample :
    VersionComponent.toChars (VersionComponent.parse "a=b=".toList) ≠ "a=b=".toList ∧
    VersionComponent.toChars (VersionComponent.parse "a=b=".toList) = "a=b".toList ∧
    VersionComponent.parse "a=b\nc=d".toList =
      { tree := "a".toList, resolved_version := some "b\nc".toList,
        symbolic_version := none } ∧
    VersionComponent.toChars (VersionComponent.parse "a=b\nc=d".toList) =
      "a=b\nc".toList := by
  refine ⟨by decide, by decide, by decide, by decide⟩

/-- C9 (amended): the parse/stringify round-trip `str(parse(s)) == s` holds
for every newline-free token where neither extraction strands a suffix: if
`'\n'` does not occur in `s`, `s` does not end in `'='`, and the remainder
after resolved-extraction does not end in `'@'`, then stringifying the
parsed component reproduces `s` exactly. -/
theorem c9_roundtrip_amended (s : List Char)
    (hnl : '\n' ∉ s)
    (h1 : s.getLast? ≠ some '=')
    (h2 : (VersionComponent.specAfterResolved s).getLast? ≠ some '@') :
    VersionComponent.toChars (VersionComponent.parse s) = s := by
  unfold VersionComponent.toChars VersionComponent.parse
  rcases hres : extractLast '=' s with _ | ⟨g1, g2⟩
  · -- no resolved version; the remainder is s itself
    have hrem : VersionComponent.specAfterResolved s = s := by
      unfold VersionComponent.specAfterResolved
      rw [hres]
    rcases hsym : extractLast '@' s with _ | ⟨t1, t2⟩
    · simp [hres, hsym]
    · have hs2 : s = t1 ++ '@' :: t2 :=
        extractLast_some_total '@' s t1 t2 hnl hsym (hrem ▸ h2)
      simp only [hres, hsym]
      rw [List.append_nil]
      exact hs2.symm
  · have hs1 : s = g1 ++ '=' :: g2 := extractLast_some_total '=' s g1 g2 hnl hres h1
    have hnl1 : '\n' ∉ g1 := by
      intro hmem
      apply hnl
      rw [hs1]
      exact List.mem_append_left _ hmem
    have hrem : VersionComponent.specAfterResolved s = g1 := by
      unfold VersionComponent.specAfterResolved
      rw [hres]
    rcases hsym : extractLast '@' g1 with _ | ⟨t1, t2⟩
    · simp only [hres, hsym]
      rw [List.append_nil]
      exact hs1.symm
    · have hg1 : g1 = t1 ++ '@' :: t2 :=
        extractLast_some_total '@' g1 t1 t2 hnl1 hsym (hrem ▸ h2)
      simp only [hres, hsym]
      rw [hs1, hg1]

/-- Witness for the amended C9 round-trip at the doctest token
`"foo@HEAD=abc"`. -/
theorem c9_roundtrip_amended_witness :
    '\n' ∉ "foo@HEAD=abc".toList ∧
    "foo@HEAD=abc".toList.getLast? ≠ some '=' ∧
    (VersionComponent.specAfterResolved "foo@HEAD=abc".toList).getLast? ≠ some '@' ∧
    VersionComponent.toChars (VersionComponent.parse "foo@HEAD=abc".toList) =
      "foo@HEAD=abc".toList :=
  ⟨by decide, by decide, by decide,
    c9_roundtrip_amended "foo@HEAD=abc".toList (by decide) (by decide) (by decide)⟩

/-- The character class `[\s|\n|\r]` of `WHITESPACE_PAT`: ASCII whitespace
(`\s`) together with the *literal pipe* that the class also contains. -/
def isVmSep (c : Char) : Bool :=
  c = ' ' || c = '\t' || c = '\n' || c = '\r' || c = '\x0b' || c = '\x0c' || c = '|'

/-- ASCII whitespace only (what the docstring and spec describe). -/
def isPyWhitespace (c : Char) : Bool :=
  c = ' ' || c = '\t' || c = '\n' || c = '\r' || c = '\x0b' || c = '\x0c'

/-- `re.split` with a `[class]+` pattern: split at every maximal run of
class characters; a run at the very start or end contributes an empty
token. -/
def splitRuns (p : Char → Bool) : List Char → List (List Char)
  | [] => [[]]
  | c :: rest =>
    if p c then
      match rest.head? with
      | some c2 => if p c2 then splitRuns p rest else [] :: splitRuns p rest
      | none => [] :: splitRuns p rest
    else
      match splitRuns p rest with
      | [] => [[c]]
      | seg :: segs => (c :: seg) :: segs

namespace VersionMap

/-- `VersionMap.parse` (version_map.py 144-159): split every argument with
`WHITESPACE_PAT` and parse each token independently. -/
def parse (specs : List (List Char)) : List VersionComponent :=
  (specs.flatMap (splitRuns isVmSep)).map VersionComponent.parse

/-- What the spec's words describe: split on whitespace only. -/
def parseSpecWords (specs : List (List Char)) : List VersionComponent :=
  (specs.flatMap (splitRuns isPyWhitespace)).map VersionComponent.parse

end VersionMap

/-- C8: evaluation at the failing input `"foo|bar"`.  Because the regex
character class `[\s|\n|\r]` contains a literal `'|'`, the code splits the
token in two, while the docstring/spec-described whitespace-only split
yields the single token `"foo|bar"`. -/
theorem c8_version_map_parse_pipe_separator :
    VersionMap.parse ["foo|bar".toList] =
      [VersionComponent.parse "foo".toList, VersionComponent.parse "bar".toList] ∧
    VersionMap.parseSpecWords ["foo|bar".toList] =
      [VersionComponent.parse "foo|bar".toList] ∧
    VersionMap.parse ["foo|bar".toList] ≠ VersionMap.parseSpecWords ["foo|bar".toList] := by
  refine ⟨by decide, by decide, by decide⟩

/-! ## `VersionComponent.resolve` (version_map.py 95-122) and the
workspace tree lookups

`Repo.tree_from_id` and `Repo.tree_from_alias` are *called* by
`VersionComponent.resolve` and by the focus command but are not defined
anywhere in the source tree.  They are modelled from the spec (§3: "resolve
(workspace) turns the spec string into a live Tree (by id or alias)", §6:
the persistence contract's registry `tree_id -> {url, …}` and alias table
`alias -> tree_id`). -/

/-- A live tree: its identity and its origin url (what `resolve` needs). -/
structure TreeRef where
  tree_id : String
  url : String
  deriving Repr, DecidableEq

/-- Modelled from the spec: the workspace state that tree resolution reads —
the persisted tree registry (`tree_id → url`), the alias table
(`alias → tree_id`), and the remote-ref listing per origin url
(`git ls-remote`, §6 `list_remote_refs`). -/
structure Workspace where
  trees : List (String × String)
  aliases : List (String × String)
  remoteRefs : List (String × List (String × String))
  deriving Repr, DecidableEq

/-- Modelled from the spec: `Repo.tree_from_id` — registry lookup by id. -/
def Workspace.tree_from_id (w : Workspace) (tid : String) : Option TreeRef :=
  (alookup tid w.trees).map (fun url => { tree_id := tid, url := url })

/-- Modelled from the spec: `Repo.tree_from_alias` — alias lookup, then by
the aliased id. -/
def Workspace.tree_from_alias (w : Workspace) (a : String) : Option TreeRef :=
  match alookup a w.aliases with
  | some tid => w.tree_from_id tid
  | none => none

/-- `repo.git.ls_remote(url)`: the remote-ref mapping for an origin. -/
def Workspace.ls_remote (w : Workspace) (url : String) : List (String × String) :=
  (alookup url w.remoteRefs).getD []

/-- The `tree` field of a `VersionComponent` under resolution: either an
already-resolved `BaseTreeRef` or the raw spec string. -/
inductive TreeField where
  | ref (t : TreeRef)
  | spec (s : String)
  deriving Repr, DecidableEq

/-- A `VersionComponent` at the resolution stage (string fields). -/
structure VersionComponentR where
  tree : TreeField
  resolved_version : Option String
  symbolic_version : Option String
  deriving Repr, DecidableEq

/-- `VersionComponent.resolve` (version_map.py 95-122).  Faithful to the
source, including its failure branch for an unknown tree, which formats the
*undefined* name `tree_specs` (the local is called `tree_spec`), so Python
raises `NameError` while evaluating the `UserError(...)` arguments. -/
def VersionComponentR.resolve (w : Workspace) (c : VersionComponentR) :
    Except PyErr VersionComponentR :=
  let treeE : Except PyErr TreeRef :=
    match c.tree with
    | .ref t => .ok t
    | .spec s =>
      match w.tree_from_id s with
      | some t => .ok t
      | none =>
        match w.tree_from_alias s with
        | some t => .ok t
        | none => .error (PyErr.nameError "tree_specs")
  match treeE with
  | .error e => .error e
  | .ok tree =>
    match c.resolved_version with
    | some r =>
      .ok { tree := .ref tree, resolved_version := some r,
            symbolic_version := c.symbolic_version }
    | none =>
      let sym := c.symbolic_version.getD "HEAD"
      match alookup sym (w.ls_remote tree.url) with
      | some commit =>
        .ok { tree := .ref tree, resolved_version := some commit,
              symbolic_version := some sym }
      | none => .error (PyErr.userError "Symbolic version not found for remote")

/-- A concrete workspace for evaluating `resolve`: one registered tree with
an alias and a remote-ref listing. -/
def c3Workspace : Workspace :=
  { trees := [("git/https://h/r.git", "https://h/r.git")]
    aliases := [("r", "git/https://h/r.git")]
    remoteRefs := [("https://h/r.git",
      [("HEAD", "abc123"), ("refs/heads/main", "def456")])] }

/-- C3: evaluation of `resolve`.  An unknown tree spec raises `NameError`
(the code references the undefined variable `tree_specs` while building the
intended `UserError`), not a user-reportable error as the claim states.
The rest of the claim is confirmed: a known alias resolves to the live
tree and the symbolic version defaults to `"HEAD"`, whose commit id is
filled in from the remote refs of the tree's origin; a symbolic version
absent from the remote refs is a user-reportable error. -/
theorem c3_resolve_unknown_tree_name_error :
    VersionComponentR.resolve c3Workspace
      { tree := .spec "nosuchtree", resolved_version := none, symbolic_version := none } =
      .error (PyErr.nameError "tree_specs") ∧
    VersionComponentR.resolve c3Workspace
      { tree := .spec "r", resolved_version := none, symbolic_version := none } =
      .ok { tree := .ref { tree_id := "git/https://h/r.git", url := "https://h/r.git" },
            resolved_version := some "abc123", symbolic_version := some "HEAD" } ∧
    VersionComponentR.resolve c3Workspace
      { tree := .spec "git/https://h/r.git", resolved_version := none,
        symbolic_version := some "refs/heads/nope" } =
      .error (PyErr.userError "Symbolic version not found for remote") :=
  ⟨rfl, rfl, rfl⟩

/-! ## The `--set` worklist of the version_map command
(commands/version_map.py 74-95; the focus command, commands/focus.py 77-93,
runs the identical loop)

```python
for tree, spec in current_tree_specs:
  if tree in processed_trees:
    continue
  processed_trees.add(tree)
  tree.update_version(spec, fetch=not args.no_fetch)
  for dep_provider in tree.dep_providers:
    for dep_tree, dep_version in dep_provider.lookup_versions():
      pending_tree_specs.append((dep_tree, dep_version))
```

`GitTreeRef.update_version` (repo.py 378-381) is declared
`def update_version(self, version)` — it has no `fetch` parameter, so the
call above raises `TypeError` on the first tree that is processed. -/

/-- The (non-self) parameter list of `GitTreeRef.update_version`. -/
def updateVersionParams : List String := ["version"]

/-- Binding keyword arguments against a Python callee's parameter list: a
keyword that names no declared parameter raises `TypeError`. -/
def pyBindKwargs (callee : String) (params kwargs : List String) : Except PyErr Unit :=
  match kwargs.find? (fun k => !params.contains k) with
  | some bad => .error (PyErr.typeError callee bad)
  | none => .ok ()

/-- State of the `--set` run: the processed set and the versions actually
checked out so far (tree id → version). -/
structure VmSetState where
  processed : List String
  versions : List (String × String)
  deriving Repr, DecidableEq

/-- One worklist item: skip if processed, else mark processed and call
`tree.update_version(spec, fetch=…)`; the call raises before the version is
checked out.  Returns the error (if any), the state at that point and the
dependency versions to enqueue. -/
def vmProcessItem (depv : String → List (String × String)) (st : VmSetState)
    (item : String × String) : Option PyErr × VmSetState × List (String × String) :=
  if st.processed.contains item.1 then (none, st, [])
  else
    let st1 : VmSetState := { st with processed := item.1 :: st.processed }
    match pyBindKwargs "update_version" updateVersionParams ["fetch"] with
    | .error e => (some e, st1, [])
    | .ok _ =>
      (none, { st1 with versions := astore item.1 item.2 st1.versions }, depv item.1)

/-- One pass over a snapshot of the worklist, accumulating the next pass's
pending items; aborts at the first uncaught exception. -/
def vmRunItems (depv : String → List (String × String)) :
    List (String × String) → VmSetState → Option PyErr × VmSetState × List (String × String)
  | [], st => (none, st, [])
  | item :: rest, st =>
    match vmProcessItem depv st item with
    | (some e, st1, _) => (some e, st1, [])
    | (none, st1, newPending) =>
      match vmRunItems depv rest st1 with
      | (err, st2, pending2) => (err, st2, newPending ++ pending2)

/-- The outer `while pending_tree_specs:` loop, with fuel (each pass either
processes a new tree or enqueues nothing, so the loop is finite; the
evaluated scenario errors in the first pass regardless of fuel). -/
def vmRunPasses (depv : String → List (String × String)) :
    Nat → List (String × String) → VmSetState → Option PyErr × VmSetState
  | 0, _, st => (none, st)
  | _ + 1, [], st => (none, st)
  | fuel + 1, pending, st =>
    match vmRunItems depv pending st with
    | (some e, st1, _) => (some e, st1)
    | (none, st1, nextPending) => vmRunPasses depv fuel nextPending st1

/-- `exec --set` from the primed worklist of resolved `(tree, version)`
components (commands/version_map.py 74-95). -/
def execVersionMapSet (depv : String → List (String × String))
    (components : List (String × String)) : Option PyErr × VmSetState :=
  vmRunPasses depv (components.length + 1) components { processed := [], versions := [] }

/-- Dependency versions for the C1 scenario: B declares a pinned dependency
on A at `v3`; A has no dependencies. -/
def c1Depv : String → List (String × String) :=
  fun t => if t = "B" then [("A", "v3")] else []

/-- C1: evaluation of the `--set` worklist at the claim's own scenario
`"A@v1 B@v2"` (resolved to `[("A","v1"), ("B","v2")]`) where B transitively
depends on A at `v3`.  The first processed tree's
`update_version(spec, fetch=…)` call raises `TypeError` (`update_version`
accepts no `fetch` keyword), so the command aborts with no version checked
out at all — in particular A does not end up at `v1`. -/
theorem c1_version_map_set_type_error :
    (execVersionMapSet c1Depv [("A", "v1"), ("B", "v2")]).1 =
      some (PyErr.typeError "update_version" "fetch") ∧
    alookup "A" (execVersionMapSet c1Depv [("A", "v1"), ("B", "v2")]).2.versions = none ∧
    alookup "B" (execVersionMapSet c1Depv [("A", "v1"), ("B", "v2")]).2.versions = none :=
  ⟨rfl, rfl, rfl⟩

/-! ## `GitTreeRef.checkout` (repo.py 335-350)

```python
def checkout(self):
  path = self.path_in_repo
  if not self.is_root_tree:
    if not self.repo.git.is_git_repository(path):
      self.repo.git.clone(self._origin.git_origin, path,
                          clone_args=self.clone_args)
      self._deps = None
    else:
      print("Skipping clone of {} (already exists)")
  for dep_provider in self.dep_providers:
    dep_provider.initialize()
```

`GitExecutor.clone` (git.py 53-58) is declared
`def clone(self, repository, directory)` — it has no `clone_args`
parameter, so the call above raises `TypeError` whenever a clone is
actually attempted.  (The value passed, `self.clone_args`, reads the
reference/shared clone configuration; the `reference_repo`/`shared_repo`
accessors are absent from `RepoTreesConfig` in the source and are modelled
from the spec as plain workspace-configuration reads — their value is
irrelevant here because the keyword itself is rejected.) -/

/-- The (non-self) parameter list of `GitExecutor.clone`. -/
def clonePositionalParams : List String := ["repository", "directory"]

namespace GitTreeRef

/-- `GitTreeRef.checkout`, abstracted over the two conditions it branches
on; returns the ordered effects (clone / provider re-initialization) or the
Python error. -/
def checkout (isRootTree pathIsGitRepo : Bool) (cloneArgs : List String) :
    Except PyErr (List String) :=
  if !isRootTree && !pathIsGitRepo then
    match pyBindKwargs "clone" clonePositionalParams ["clone_args"] with
    | .error e => .error e
    | .ok _ => .ok (["clone"] ++ cloneArgs ++ ["provider_init"])
  else
    .ok ["provider_init"]

end GitTreeRef

/-- C4: evaluation of `checkout`.  For a non-root tree whose path is not yet
a git repository, the clone call raises `TypeError` (`clone` accepts no
`clone_args` keyword) instead of cloning; when the path already is a
repository the clone is skipped and provider initialization still runs, and
the root tree never clones but still re-runs provider initialization. -/
theorem c4_checkout_clone_kwarg_type_error :
    GitTreeRef.checkout false false [] = .error (PyErr.typeError "clone" "clone_args") ∧
    GitTreeRef.checkout false false ["--reference-if-able", "/other/tree"] =
      .error (PyErr.typeError "clone" "clone_args") ∧
    GitTreeRef.checkout false true [] = .ok ["provider_init"] ∧
    GitTreeRef.checkout true false [] = .ok ["provider_init"] :=
  ⟨rfl, rfl, rfl, rfl⟩

/-! ## `GitTreeRef.make_link` (repo.py 352-376) and
`fileutils.make_relative_link` (fileutils.py 22-50)

Paths are modelled as lists of path components (already resolved/absolute —
`Path.resolve` is the identity on them).  The filesystem is an association
list from path to entry; `os.readlink` returns the stored link text
verbatim.  `os.makedirs(dirname, exist_ok=True)` only creates intermediate
directories and is not tracked (it affects no entry the code later reads).

The crucial detail kept from the source: `make_relative_link` stores a
*relative* link text (`"../" * backtracks + src.relative_to(repo)`), while
`make_link`'s self-healing check compares `os.readlink(target_path)` — that
relative text — against the *absolute* `source_path` with string equality
(repo.py 363-364). -/

/-- A directory entry: a real directory/file, or a symlink storing its
target text. -/
inductive FsEntry where
  | dirEntry
  | fileEntry (content : String)
  | symlinkEntry (target : List String)
  deriving Repr, DecidableEq

/-- The filesystem model: path → entry. -/
structure LinkFs where
  entries : List (List String × FsEntry)
  deriving Repr, DecidableEq

def LinkFs.read (fs : LinkFs) (p : List String) : Option FsEntry :=
  alookup p fs.entries

def LinkFs.write (fs : LinkFs) (p : List String) (e : FsEntry) : LinkFs :=
  { entries := astore p e fs.entries }

/-- `pathlib.PurePath.parents` for an absolute component path: all proper
prefixes, longest first, ending with the root `[]`. -/
def pathParents (p : List String) : List (List String) :=
  (List.range p.length).map (fun i => p.take (p.length - 1 - i))

/-- `fileutils.make_relative_link`'s link-text computation: walk up `dst`'s
parents accumulating `".."` until reaching `relative_to`, then append
`src.relative_to(relative_to)`.  If `relative_to` is not among the parents
this is the `ValueError` branch; if it is the *first* parent the accumulator
is still `None` and `None.joinpath` raises `AttributeError`
(`PyErr.nameError` is not used here; the attribute error is folded into
`userError` tagging since only the error-vs-ok distinction matters for the
claims evaluated on this function — the evaluated scenario takes neither
branch). -/
def makeRelativeLink (src dst relative_to : List String) :
    Except PyErr (List String) :=
  match (pathParents dst).findIdx? (fun par => par = relative_to) with
  | none => .error (PyErr.userError "Link destination is not relative to root")
  | some 0 => .error (PyErr.userError "NoneType has no joinpath")
  | some (backtracks + 1) =>
    if src.take relative_to.length = relative_to then
      .ok (List.replicate (backtracks + 1) ".." ++ src.drop relative_to.length)
    else
      .error (PyErr.userError "src is not relative to the common root")

/-- The side file written by `GitConfigAnnotation.save_to_git_root`
(config.py 102-115): `.{basename}.mmr-config` next to the git root. -/
def mmrConfigNotePath (gitRootPath : List String) : List String :=
  gitRootPath.dropLast ++ ["." ++ (gitRootPath.getLast?.getD "") ++ ".mmr-config"]

/-- `GitTreeRef.make_link(target_path)` (repo.py 352-376) for a non-root
tree: write the tree-id side file next to the source, then either
self-check an existing link (comparing its stored text with the absolute
source path), refuse a non-link entry, or create the relative symlink. -/
def make_link (repoPath sourcePath targetPath : List String) (treeId : String)
    (isRootTree : Bool) (fs : LinkFs) : Except PyErr LinkFs :=
  if isRootTree then .ok fs
  else
    let fs1 := fs.write (mmrConfigNotePath sourcePath) (.fileEntry treeId)
    match fs1.read targetPath with
    | some (.symlinkEntry existingTarget) =>
      if existingTarget = sourcePath then .ok fs1
      else .error (PyErr.userError "Cannot link tree (path is already linked)")
    | some _ => .error (PyErr.userError "Cannot link tree (path exists)")
    | none =>
      match makeRelativeLink sourcePath targetPath repoPath with
      | .ok linkText => .ok (fs1.write targetPath (.symlinkEntry linkText))
      | .error e => .error e

/-- The C5 scenario: a workspace at `/repo`, the tree materialized in the
universe, and a link target under `/repo/all`. -/
def c5Repo : List String := ["repo"]
def c5Src : List String := ["repo", ".mmrepo", "universe", "github.com", "org", "foo.git"]
def c5Tgt : List String := ["repo", "all", "foo"]
def c5Id : String := "git/https://github.com/org/foo.git"

/-- C5: evaluation of `make_link` called twice with the same source and
target.  The first call succeeds and stores the *relative* link text
`../.mmrepo/universe/github.com/org/foo.git`; the second call reads that
text back and compares it with the *absolute* source path, so the equality
is false and it raises the "already linked" `UserError` instead of being a
no-op. -/
theorem c5_make_link_second_call_errors :
    (make_link c5Repo c5Src c5Tgt c5Id false { entries := [] }).isOk = true ∧
    (do
      let fs1 ← make_link c5Repo c5Src c5Tgt c5Id false { entries := [] }
      (fs1.read c5Tgt).elim (Except.error PyErr.assertError) Except.ok) =
      .ok (FsEntry.symlinkEntry
        ["..", ".mmrepo", "universe", "github.com", "org", "foo.git"]) ∧
    (do
      let fs1 ← make_link c5Repo c5Src c5Tgt c5Id false { entries := [] }
      make_link c5Repo c5Src c5Tgt c5Id false fs1) =
      .error (PyErr.userError "Cannot link tree (path is already linked)") :=
  ⟨rfl, rfl, rfl⟩

/-! ## `GitOrigin` (git.py 153-242)

`universe_path` / `default_alias` are embedded on `List Char`.  On the
target platform `os.path.sep = '/'`, so `path.replace("/", os.path.sep)` is
the identity and `os.path.join` inserts `'/'`.  `urllib.parse.urlsplit` is
embedded for the URL forms named by the claim (no query or fragment):
netloc is everything between the `//` and the next `'/'`, path the rest. -/

namespace GitOrigin

end GitOrigin

/-! Helper lemmas about `takeWhile`/`dropWhile` over an append whose left
part is predicate-true throughout. -/

/-- Outcome of one tree's `checkout()` call. -/
inductive CheckoutOutcome where
  | ok
  | raisedUserError
  | raisedUncaught (e : PyErr)
  deriving Repr, DecidableEq

/-- The orchestrator state: the known and processed sets, the errored set,
the order in which `checkout()` was invoked, and the uncaught exception (if
any) that aborted the command. -/
structure WalkSt (T : Type) where
  allDepends : Finset T
  processed : Finset T
  errored : Finset T
  calls : List T
  aborted : Option PyErr

variable {T : Type} [DecidableEq T]

/-- The one-step dependency relation. -/
def depStep (deps : T → Finset T) (a b : T) : Prop := b ∈ deps a

/-- The loop body for one snapshot element. -/
def stepTree (outcome : T → CheckoutOutcome) (deps : T → Finset T)
    (s : WalkSt T) (t : T) : WalkSt T :=
  if s.aborted.isSome then s
  else if t ∈ s.processed then s
  else
    let s1 : WalkSt T :=
      { s with processed := insert t s.processed, calls := s.calls ++ [t] }
    match outcome t with
    | .ok => { s1 with allDepends := s1.allDepends ∪ deps t }
    | .raisedUserError =>
      { s1 with errored := insert t s1.errored,
                allDepends := s1.allDepends ∪ deps t }
    | .raisedUncaught e => { s1 with aborted := some e }

/-- One pass of the `while` loop: iterate the snapshot of `all_depends` (in
the order fixed by `enum`). -/
def runPass (enum : List T) (outcome : T → CheckoutOutcome) (deps : T → Finset T)
    (s : WalkSt T) : WalkSt T :=
  (enum.filter (fun t => decide (t ∈ s.allDepends ∧ t ∉ s.processed))).foldl
    (stepTree outcome deps) s

/-- The `while all_depends != recursive_processed` loop, with fuel; an
uncaught exception from a pass ends the run immediately. -/
def runWalk (enum : List T) (outcome : T → CheckoutOutcome) (deps : T → Finset T) :
    Nat → WalkSt T → WalkSt T
  | 0, s => s
  | fuel + 1, s =>
    if s.aborted.isSome then s
    else if s.allDepends = s.processed then s
    else runWalk enum outcome deps fuel (runPass enum outcome deps s)

/-- The orchestrator run: the start tree is checked out first, outside any
handler (checkout.py line 61); only if that succeeds are its dependencies
collected and the loop entered. -/
def checkoutCommand (enum : List T) (outcome : T → CheckoutOutcome)
    (deps : T → Finset T) (start : T) : WalkSt T :=
  match outcome start with
  | .ok =>
    runWalk enum outcome deps (enum.length + 1)
      { allDepends := insert start (deps start), processed := {start},
        errored := ∅, calls := [start], aborted := none }
  | .raisedUserError =>
    { allDepends := ∅, processed := ∅, errored := ∅, calls := [start],
      aborted := some (PyErr.userError "checkout of the requested tree failed") }
  | .raisedUncaught e =>
    { allDepends := ∅, processed := ∅, errored := ∅, calls := [start],
      aborted := some e }

/-- A chain graph `0 → 1 → 2`; tree `1` is not yet cloned, so its
`checkout()` raises the uncaught clone `TypeError` of C4. -/
def c2ChainDeps : Fin 3 → Finset (Fin 3) :=
  fun t => if t = 0 then {1} else if t = 1 then {2} else ∅

def c2FreshCloneOutcome : Fin 3 → CheckoutOutcome :=
  fun t => if t = 1 then .raisedUncaught (PyErr.typeError "clone" "clone_args")
    else .ok

/-- A diamond-shaped graph: `0 → {1, 2}`, `1 → {3}`, `2 → {3}`, with the
shared dependency `3` reachable via two paths. -/
def c2DemoDeps : Fin 4 → Finset (Fin 4) :=
  fun t => if t = 0 then {1, 2} else if t = 3 then ∅ else {3}

/-- C2: evaluation of the orchestrator.  On the chain `0 → 1 → 2` where the
reachable tree `1` still needs cloning, its `checkout()` raises the
uncaught clone `TypeError` (C4), which `except UserError` does not catch:
the walk aborts after invoking `checkout()` only on trees `0` and `1`, and
the reachable tree `2` is never processed even though it is in the closure
of the start tree — refuting "terminates [normally], invokes each
reachable tree's checkout() exactly once, and the final processed set
equals the full reachable closure" for arbitrary graphs.  On an all-`ok`
diamond graph (every tree already cloned and healthy) the walk does behave
as the claim describes: no abort, each of the four reachable trees checked
out exactly once, processed set equal to the full closure. -/
theorem c2_checkout_walk_aborts_uncaught :
    (checkoutCommand (List.finRange 3) c2FreshCloneOutcome c2ChainDeps 0).aborted =
      some (PyErr.typeError "clone" "clone_args") ∧
    (checkoutCommand (List.finRange 3) c2FreshCloneOutcome c2ChainDeps 0).calls =
      [0, 1] ∧
    (2 : Fin 3) ∉
      (checkoutCommand (List.finRange 3) c2FreshCloneOutcome c2ChainDeps 0).processed ∧
    Relation.ReflTransGen (depStep c2ChainDeps) 0 2 ∧
    (checkoutCommand (List.finRange 4) (fun _ => CheckoutOutcome.ok)
      c2DemoDeps 0).aborted = none ∧
    (checkoutCommand (List.finRange 4) (fun _ => CheckoutOutcome.ok)
      c2DemoDeps 0).calls = [0, 1, 2, 3] ∧
    (checkoutCommand (List.finRange 4) (fun _ => CheckoutOutcome.ok)
      c2DemoDeps 0).processed = Finset.univ := by
  refine ⟨by decide, by decide, by decide, ?_, by decide, by decide, by decide⟩
  have h01 : depStep c2ChainDeps 0 1 := by
    show (1 : Fin 3) ∈ c2ChainDeps 0
    decide
  have h12 : depStep c2ChainDeps 1 2 := by
    show (2 : Fin 3) ∈ c2ChainDeps 1
    decide
  exact Relation.ReflTransGen.tail (Relation.ReflTransGen.single h01) h12
